import Mathlib

/-!
Verification of the `regexp-to-arkregex` codemod.

The development shallowly embeds the transformation in
`scripts/codemod.ts` (the `new RegExp(...)` → `regex(...)` rewriter) and
the manifest editor in `scripts/add-dependency.ts`.  File texts are
`List Char` (one entry per UTF-16 code unit of the JavaScript string; all
texts used here are ASCII, where the two notions agree).  Syntax-tree
nodes supplied by the external ast-grep host are embedded as the
inductive `Expr`, which records exactly the node attributes the codemod
inspects (node kind, source text, the binding information returned by
`definition()`, and the fields `expression` / `left` / `right` /
`operator` / `value` / `kind` that the classifier reads).
-/

/-! ## Text helpers (JavaScript string primitives over `List Char`) -/

/-- Slice `s.substring a b` of a JavaScript string (with `a ≤ b`). -/
def listSlice (s : List Char) (a b : Nat) : List Char :=
  (s.drop a).take (b - a)

/-- JavaScript `hay.includes(needle)`: `needle` occurs as a contiguous
substring of `hay`. -/
def containsSub (needle hay : List Char) : Bool :=
  (List.range (hay.length + 1)).any (fun i => needle.isPrefixOf (hay.drop i))

/-- Whitespace recognised by the model of JavaScript `trim()` (the ASCII
whitespace characters; the Unicode space characters that `trim` also
strips do not occur in the modelled texts). -/
def isJsSpace (c : Char) : Bool :=
  c == ' ' || c == '\t' || c == '\n' || c == '\r' || c == '\x0b' || c == '\x0c'

/-- JavaScript `s.trim()`. -/
def trimList (s : List Char) : List Char :=
  ((s.dropWhile isJsSpace).reverse.dropWhile isJsSpace).reverse

/-- The loop `while (lineStart > 0 && sourceText[lineStart-1] !== '\n')
lineStart--;` of `transform` (codemod.ts:443-446): walk back from index
`i` to the start of the line containing it. -/
def lineStartFrom (s : List Char) : Nat → Nat
  | 0 => 0
  | j + 1 => if s.get? j = some '\n' then j + 1 else lineStartFrom s j

/-- JavaScript `s.indexOf(c, start)` for a single character, as an
`Option` instead of `-1`. -/
def indexOfFrom (s : List Char) (c : Char) (start : Nat) : Option Nat :=
  match (s.drop start).findIdx? (· = c) with
  | some j => some (start + j)
  | none => none

/-- JavaScript `hay.lastIndexOf(needle)`: the greatest index at which
`needle` starts in `hay`, as an `Option` instead of `-1`. -/
def lastIndexOfList (hay needle : List Char) : Option Nat :=
  (List.range (hay.length + 1)).reverse.find? (fun i => needle.isPrefixOf (hay.drop i))

/-- The whitespace-skipping loop of the import inserter
(codemod.ts:624-637), expressed on the suffix that starts at the
insertion position: how many characters the loop advances.  Spaces and
tabs are skipped; a newline (or a CRLF pair) is consumed and the loop
breaks; anything else breaks immediately. -/
def skipWsAux : List Char → Nat
  | [] => 0
  | c :: rest =>
    if c == ' ' || c == '\t' then 1 + skipWsAux rest
    else if c == '\n' then 1
    else if c == '\r' && (match rest with | '\n' :: _ => true | _ => false) then 2
    else 0

/-! ## Syntax-tree node model -/

/-- Embedding of the ast-grep nodes inspected by the codemod.  Each
constructor records the attributes the TypeScript code reads from a node
of that tree-sitter kind; `other` covers every remaining kind (including
the punctuation children `(`, `)`, `,` and `comment` of an `arguments`
node).  An `ident` node carries the outcome of the host's semantic
lookup: the `definition()` kind (as a string, `none` when no definition
record exists), whether a `variable_declarator` ancestor of the
definition node was found, that declarator's `value` field, whether the
declarator's parent is a `variable_declaration`, and the text of that
parent's `kind` field. -/
inductive Expr where
  | str (text : String)
  | templateString (substitutionCount : Nat) (text : String)
  | parenthesized (inner : Option Expr) (text : String)
  | ident (defnKind : Option String) (declaratorFound : Bool) (declValue : Option Expr)
      (declParentIsVarDecl : Bool) (declKindText : Option String) (text : String)
  | binary (operatorText : Option String) (left : Option Expr) (right : Option Expr)
      (text : String)
  | other (kind : String) (text : String)
deriving Repr

/-- The tree-sitter kind string of a node, as tested by `node.is(...)`
and `node.kind()`. -/
def Expr.kindOf : Expr → String
  | .str _ => "string"
  | .templateString _ _ => "template_string"
  | .parenthesized _ _ => "parenthesized_expression"
  | .ident _ _ _ _ _ _ => "identifier"
  | .binary _ _ _ _ => "binary_expression"
  | .other k _ => k

/-- The source text of a node, as returned by `node.text()`. -/
def Expr.textOf : Expr → String
  | .str t => t
  | .templateString _ t => t
  | .parenthesized _ t => t
  | .ident _ _ _ _ _ t => t
  | .binary _ _ _ t => t
  | .other _ t => t

/-- Embedding of `isStaticallyKnown` (codemod.ts:47-114).  String
literals are static; template literals are static exactly when they have
no substitutions; a parenthesized expression defers to its inner
expression; an identifier with a local definition is static only when
the defining declarator's `value` is itself a `string` or
`template_string` node, the declarator sits under a
`variable_declaration` whose `kind` field reads `const`, and that value
is static; a `+` binary expression is static when both operands are;
everything else (and every fall-through) is dynamic. -/
def isStaticallyKnown : Expr → Bool
  | .str _ => true
  | .templateString substitutionCount _ => substitutionCount == 0
  | .parenthesized inner _ =>
    match inner with
    | some e => isStaticallyKnown e
    | none => false
  | .ident defnKind declaratorFound declValue declParentIsVarDecl declKindText _ =>
    if defnKind == some "local" then
      if declaratorFound then
        match declValue with
        | some value =>
          if (value.kindOf == "string" || value.kindOf == "template_string")
              && declParentIsVarDecl && (declKindText == some "const") then
            isStaticallyKnown value
          else false
        | none => false
      else false
    else false
  | .binary operatorText left right _ =>
    if operatorText == some "+" then
      match left, right with
      | some l, some r => isStaticallyKnown l && isStaticallyKnown r
      | _, _ => false
    else false
  | .other _ _ => false

/-! ## Candidate sites and edits -/

/-- The attributes of the `RegExp` identifier node that `isGlobalRegExp`
(codemod.ts:11-42) inspects: whether its parent is a
`member_expression`, and the kind of its `definition()` record (`none`
when the host has no binding record for it). -/
structure RegExpIdent where
  parentIsMember : Bool
  defnKind : Option String
deriving Repr

/-- Embedding of `isGlobalRegExp` (codemod.ts:11-42) applied to a found
identifier node: not global when the identifier sits inside a member
expression or resolves to a `local` or `import` binding; otherwise it is
assumed to be the ambient global. -/
def isGlobalRegExp (i : RegExpIdent) : Bool :=
  if i.parentIsMember then false
  else if i.defnKind == some "local" then false
  else if i.defnKind == some "import" then false
  else true

/-- One candidate `new RegExp(...)` site produced by the host's
`findAll` query (codemod.ts:349-360): the `RegExp` identifier found
inside it (`none` when `expression.find` returns null), the children of
its `arguments` field (`none` when the field is absent), whether the
site is the `object` of an enclosing `member_expression`, and its byte
range in the source text. -/
structure Site where
  identFound : Option RegExpIdent
  args : Option (List Expr)
  isMemberObject : Bool
  startIndex : Nat
  endIndex : Nat
deriving Repr

/-- One candidate `RegExp(...)` call-form site of the second loop
(codemod.ts:491-593): the `function` field (`none` when absent), whether
that node is an identifier, its identifier attributes, plus the same
argument/member/range data as `Site`. -/
structure CallSite where
  fnFieldFound : Bool
  fnIsIdentifier : Bool
  fnIdent : RegExpIdent
  args : Option (List Expr)
  isMemberObject : Bool
  startIndex : Nat
  endIndex : Nat
deriving Repr

/-- A text edit of the host engine: replace the half-open range
`[startPos, endPos)` with `insertedText` (insertions have
`startPos = endPos`). -/
structure Edit where
  startPos : Nat
  endPos : Nat
  insertedText : List Char
deriving Repr, DecidableEq

/-- The child filter of `getArguments` (codemod.ts:119-136) and of the
`allArgs` recomputation (codemod.ts:393-395): keep a child unless its
kind is `(`, `)`, `,` or `comment`. -/
def notArgPunct (c : Expr) : Bool :=
  !(c.kindOf == "(" || c.kindOf == ")" || c.kindOf == "," || c.kindOf == "comment")

/-- Embedding of `getArguments` (codemod.ts:119-136): the first and
second children of the `arguments` node after dropping punctuation and
comments. -/
def getArguments (children : List Expr) : Option Expr × Option Expr :=
  let args := children.filter notArgPunct
  (args.get? 0, args.get? 1)

/-- The effective arguments of a candidate site: the punctuation-free
children of its `arguments` node (empty when the field is absent). -/
def effectiveArgs (s : Site) : List Expr :=
  match s.args with
  | none => []
  | some children => children.filter notArgPunct

/-- Embedding of the replacement-text construction (codemod.ts:404-424):
the chosen binding name applied to the original argument texts, each
dynamic argument followed by a `Parameters<typeof ...>` coercion, and a
trailing `as RegExp` coercion. -/
def buildReplacement (functionName : String) (firstArg : Expr) (secondArg : Option Expr)
    (patternStatic flagsStatic : Bool) : String :=
  let r := functionName ++ "("
  let r := if patternStatic then r ++ firstArg.textOf
    else r ++ firstArg.textOf ++ " as Parameters<typeof " ++ functionName ++ ">[0]"
  let r := match secondArg with
    | some a =>
      if flagsStatic then r ++ ", " ++ a.textOf
      else r ++ ", " ++ a.textOf ++ " as Parameters<typeof " ++ functionName ++ ">[1] | undefined"
    | none => r
  r ++ ") as RegExp"

/-- The diagnostic marker searched for by the idempotence check. -/
def todoMarker : String := "TODO(arkregex)"

/-- The fixed diagnostic comment line inserted above a site with a
dynamic argument (codemod.ts:475). -/
def todoComment : String :=
  "// TODO(arkregex): pattern/flags not statically known; typing may degrade. Consider regex.as<...>(...)\n"

/-- The `lineBeforeStart` computation of the comment annotator
(codemod.ts:458-467): step left over the newline that ends the previous
line (possibly reaching index `-1` when `lineStart = 1`), then walk back
to that line's start; `-1` when `lineStart = 0`. -/
def lineBeforeStartOf (s : List Char) (lineStart : Nat) : Int :=
  if lineStart > 0 then
    let p0 := lineStart - 1
    if s.get? p0 = some '\n' then
      if p0 = 0 then -1 else (lineStartFrom s (p0 - 1) : Int)
    else (lineStartFrom s p0 : Int)
  else -1

/-- The skip condition of the comment annotator (codemod.ts:448-472):
the current line is a `//` comment line containing the marker, or the
text of the immediately preceding line (including its newline) contains
the marker. -/
def todoSkip (sourceText : List Char) (startIndex : Nat) : Bool :=
  let lineStart := lineStartFrom sourceText startIndex
  let currentLineText := match indexOfFrom sourceText '\n' lineStart with
    | some lineEnd => listSlice sourceText lineStart lineEnd
    | none => sourceText.drop lineStart
  let hasCommentOnCurrentLine :=
    ("//".toList.isPrefixOf (trimList currentLineText)) &&
      containsSub todoMarker.toList currentLineText
  let lineBeforeStart := lineBeforeStartOf sourceText lineStart
  let hasCommentOnPreviousLine :=
    decide (0 ≤ lineBeforeStart) &&
      containsSub todoMarker.toList (listSlice sourceText lineBeforeStart.toNat lineStart)
  hasCommentOnCurrentLine || hasCommentOnPreviousLine

/-- Embedding of the diagnostic-comment scheduling (codemod.ts:437-485)
for a site starting at `startIndex`: unless the skip condition holds,
one insertion of the fixed comment at the start of the site's line. -/
def scheduleComment (sourceText : List Char) (startIndex : Nat) : List Edit :=
  let lineStart := lineStartFrom sourceText startIndex
  if todoSkip sourceText startIndex then []
  else [⟨lineStart, lineStart, todoComment.toList⟩]

/-! ## Per-site processing -/

/-- Embedding of the body of the `new RegExp(...)` loop of `transform`
(codemod.ts:377-488) for one candidate site: the edits it appends.  A
site is skipped (no edits) when the `RegExp` identifier was not found or
is not global, the `arguments` field is absent, there is no first
effective argument, or there are more than two effective arguments.
Otherwise the comment annotator may schedule one insertion, followed by
the replacement of the site's range. -/
def processSite (sourceText : List Char) (functionName : String) (s : Site) : List Edit :=
  match s.identFound with
  | none => []
  | some i =>
    if !(isGlobalRegExp i) then []
    else match s.args with
      | none => []
      | some children =>
        match (getArguments children).1 with
        | none => []
        | some firstArg =>
          if (children.filter notArgPunct).length > 2 then []
          else
            let secondArg := (getArguments children).2
            let patternStatic := isStaticallyKnown firstArg
            let flagsStatic := match secondArg with
              | some a => isStaticallyKnown a
              | none => true
            let base := buildReplacement functionName firstArg secondArg patternStatic flagsStatic
            let replacement := if s.isMemberObject then "(" ++ base ++ ")" else base
            let commentEdits :=
              if !patternStatic || !flagsStatic then scheduleComment sourceText s.startIndex
              else []
            commentEdits ++ [⟨s.startIndex, s.endIndex, replacement.toList⟩]

/-- Embedding of the body of the `RegExp(...)` call-form loop
(codemod.ts:491-593), identical to `processSite` except that the callee
is the call's `function` field and must be an identifier node. -/
def processCallSite (sourceText : List Char) (functionName : String) (s : CallSite) : List Edit :=
  if !s.fnFieldFound || !s.fnIsIdentifier || !(isGlobalRegExp s.fnIdent) then []
  else match s.args with
    | none => []
    | some children =>
      match (getArguments children).1 with
      | none => []
      | some firstArg =>
        if (children.filter notArgPunct).length > 2 then []
        else
          let secondArg := (getArguments children).2
          let patternStatic := isStaticallyKnown firstArg
          let flagsStatic := match secondArg with
            | some a => isStaticallyKnown a
            | none => true
          let base := buildReplacement functionName firstArg secondArg patternStatic flagsStatic
          let replacement := if s.isMemberObject then "(" ++ base ++ ")" else base
          let commentEdits :=
            if !patternStatic || !flagsStatic then scheduleComment sourceText s.startIndex
            else []
          commentEdits ++ [⟨s.startIndex, s.endIndex, replacement.toList⟩]

/-- Whether a candidate site passes every guard of the loop body
(codemod.ts:382-398); this depends only on the site's own data, not on
the file text or the chosen binding name. -/
def siteAccepted (s : Site) : Bool :=
  match s.identFound with
  | none => false
  | some i =>
    if !(isGlobalRegExp i) then false
    else match s.args with
      | none => false
      | some children =>
        match (getArguments children).1 with
        | none => false
        | some _ => !((children.filter notArgPunct).length > 2)

/-! ## Import manager -/

/-- Embedding of the binding-name choice (codemod.ts:343): the alternate
name `arkregex` when a conflict exists, otherwise the existing alias if
any, otherwise the natural name `regex`. -/
def chosenFunctionName (importHas : Bool) (importAlias : Option String)
    (hasConflict : Bool) : String :=
  if hasConflict then "arkregex" else importAlias.getD "regex"

/-- Embedding of the new-import decision (codemod.ts:344): needed unless
a `regex` import from `arkregex` already exists, except that a conflict
re-triggers it when that import is un-aliased. -/
def needsNewImport (importHas : Bool) (importAlias : Option String)
    (hasConflict : Bool) : Bool :=
  !importHas || (hasConflict && importAlias.isNone)

/-- The import line constructed at codemod.ts:603-605: an alias clause
exactly when the chosen binding name is `arkregex`. -/
def importStatementFor (functionName : String) : String :=
  if functionName == "arkregex" then "import { regex as arkregex } from \"arkregex\";\n"
  else "import { regex } from \"arkregex\";\n"

/-- The name bound by the import line `importStatementFor` emits:
`arkregex` for the alias form, `regex` for the plain form. -/
def generatedImportBinding (functionName : String) : String :=
  if functionName == "arkregex" then "arkregex" else "regex"

/-- Embedding of the import-line insertion (codemod.ts:607-661), as a
function of the texts of the original file's import statements, of the
line to add, and of the already-rewritten source.  The anchor is the
last occurrence of the last original import's text; after it, trailing
whitespace is skipped up to and including one line break.  When the
anchor text is absent the insertion falls back to the end of the line
containing the last occurrence of `import `, then (when that line never
ends) to appending after a fresh newline, and (when `import ` does not
occur, or no import statements existed) to prepending at the start. -/
def insertImport (existingImportTexts : List (List Char)) (importStatement : List Char)
    (newSource : List Char) : List Char :=
  match existingImportTexts.getLast? with
  | some lastImportText =>
    match lastIndexOfList newSource lastImportText with
    | some lastIndex =>
      let insertPos := lastIndex + lastImportText.length +
        skipWsAux (newSource.drop (lastIndex + lastImportText.length))
      newSource.take insertPos ++ importStatement ++ newSource.drop insertPos
    | none =>
      match lastIndexOfList newSource "import ".toList with
      | some lastImportPos =>
        match indexOfFrom newSource '\n' lastImportPos with
        | some lineEnd =>
          newSource.take (lineEnd + 1) ++ importStatement ++ newSource.drop (lineEnd + 1)
        | none => newSource ++ '\n' :: importStatement
      | none => importStatement ++ newSource
  | none => importStatement ++ newSource

/-! ## Edit committer and the whole-file transform -/

/-- Insert an edit into a list sorted by start position, before the
first edit that starts no earlier (stable for equal start positions). -/
def insertEdit (e : Edit) : List Edit → List Edit
  | [] => [e]
  | x :: xs => if e.startPos ≤ x.startPos then e :: x :: xs else x :: insertEdit e xs

/-- Stable sort of an edit list by start position. -/
def sortEdits : List Edit → List Edit
  | [] => []
  | e :: es => insertEdit e (sortEdits es)

/-- Apply a start-sorted edit list to a text: keep the characters before
each edit's range, emit its replacement text, and resume after the
range.  An edit that overlaps the already-consumed prefix or has an
inverted range is dropped. -/
def applyEditsAux (text : List Char) (pos : Nat) : List Edit → List Char
  | [] => text.drop pos
  | e :: rest =>
    if pos ≤ e.startPos ∧ e.startPos ≤ e.endPos then
      (text.drop pos).take (e.startPos - pos) ++ e.insertedText ++ applyEditsAux text e.endPos rest
    else applyEditsAux text pos rest

/-- Modelled from the spec: the host engine's `commitEdits` (an external
collaborator of codemod.ts, absent from the repository) applies all
accumulated replacements and insertions as one atomic text rewrite over
non-overlapping ranges. -/
def commitEdits (text : List Char) (edits : List Edit) : List Char :=
  applyEditsAux text 0 (sortEdits edits)

/-- The call-form configuration flag (codemod.ts:5). -/
def TRANSFORM_CALL_FORM : Bool := false

/-- One parsed file as the host hands it to `transform`
(codemod.ts:330-346, 349-374, 607-610): its text, the candidate
constructor-form and call-form sites found by the queries, the result of
`hasRegexImport` (codemod.ts:178-266) split into its `has` and `alias`
components, the result of `hasRegexConflict` (codemod.ts:271-328), and
the texts of the file's `import_statement` nodes. -/
structure FileModel where
  sourceText : List Char
  sites : List Site
  callSites : List CallSite
  importHas : Bool
  importAlias : Option String
  hasConflict : Bool
  existingImportTexts : List (List Char)

/-- The edit list accumulated by `transform` (codemod.ts:346-593): the
constructor-form loop over every candidate site, then the call-form loop
over the call candidates found only when `TRANSFORM_CALL_FORM` is set. -/
def transformEdits (f : FileModel) (functionName : String) : List Edit :=
  f.sites.flatMap (processSite f.sourceText functionName) ++
    (if TRANSFORM_CALL_FORM then f.callSites else []).flatMap
      (processCallSite f.sourceText functionName)

/-- Embedding of `transform` (codemod.ts:330-665): compute the binding
name and the import decision, accumulate the edits, return the `null`
sentinel when there are none, otherwise commit the edits and insert the
new import line when one is needed. -/
def transform (f : FileModel) : Option (List Char) :=
  let functionName := chosenFunctionName f.importHas f.importAlias f.hasConflict
  let edits := transformEdits f functionName
  if edits.isEmpty then none
  else
    let newSource := commitEdits f.sourceText edits
    if needsNewImport f.importHas f.importAlias f.hasConflict then
      some (insertImport f.existingImportTexts (importStatementFor functionName).toList newSource)
    else some newSource

/-! ## Manifest editor (add-dependency.ts) -/

/-- Parsed JSON values, the output of the host's `JSON.parse`.  Numbers
are modelled as integers: no numeric manifest field takes part in any
decision of the editor beyond truthiness. -/
inductive Json where
  | null
  | bool (b : Bool)
  | num (n : Int)
  | str (s : String)
  | arr (elems : List Json)
  | obj (fields : List (String × Json))
deriving Repr

/-- Property lookup in an object's field list.  `JSON.parse` gives the
last of several identically-named members, so the lookup is last-wins. -/
def jsonLookup : List (String × Json) → String → Option Json
  | [], _ => none
  | (k', v) :: rest, k =>
    match jsonLookup rest k with
    | some r => some r
    | none => if k' == k then some v else none

/-- JavaScript property read `v.k`: a `TypeError` (the `error` case) on
`null`, the field on an object, `undefined` (`none`) on any other
value. -/
def jsMember (v : Json) (k : String) : Except Unit (Option Json) :=
  match v with
  | .null => .error ()
  | .obj fields => .ok (jsonLookup fields k)
  | _ => .ok none

/-- JavaScript truthiness of a possibly-`undefined` value. -/
def jsTruthy : Option Json → Bool
  | none => false
  | some .null => false
  | some (.bool b) => b
  | some (.num n) => n != 0
  | some (.str s) => s != ""
  | some (.arr _) => true
  | some (.obj _) => true

/-- The optional-chained read `v?.[k]` applied to an already-read
property value `v` (`none` = `undefined`): short-circuits to `undefined`
on `undefined`/`null`, reads the field on an object, and yields
`undefined` on other values. -/
def optChain (v : Option Json) (k : String) : Option Json :=
  match v with
  | none => none
  | some .null => none
  | some (.obj fields) => jsonLookup fields k
  | some _ => none

/-- Property write on an object's field list: an existing key keeps its
position and gets the new value, a new key is appended at the end (the
JavaScript property-order rule). -/
def setFieldList (fields : List (String × Json)) (k : String) (w : Json) :
    List (String × Json) :=
  if fields.any (fun p => p.1 == k) then
    fields.map (fun p => if p.1 == k then (k, w) else p)
  else fields ++ [(k, w)]

/-- JavaScript property write `v[k] = w` in strict (module) code:
updates an object in place and throws a `TypeError` on a primitive.
Expando assignment to an array value, which JavaScript would allow, is
outside the fragment the theorems use: their hypotheses require the
dependency groups to be objects when present. -/
def jsSetProp (v : Json) (k : String) (w : Json) : Except Unit Json :=
  match v with
  | .obj fields => .ok (.obj (setFieldList fields k w))
  | _ => .error ()

/-- Code-unit comparison of two texts; on the ASCII keys the theorems
use, this is exactly the ordering of JavaScript's default `sort()`. -/
def charListLe : List Char → List Char → Bool
  | [], _ => true
  | _ :: _, [] => false
  | a :: as, b :: bs =>
    if a.toNat = b.toNat then charListLe as bs else decide (a.toNat < b.toNat)

/-- String comparison used to model `Object.keys(obj).sort()`. -/
def strLe (a b : String) : Bool := charListLe a.data b.data

/-- Insert a key into a `strLe`-sorted list, keeping it sorted. -/
def insertSortedKey (k : String) : List String → List String
  | [] => [k]
  | x :: xs => if strLe k x then k :: x :: xs else x :: insertSortedKey k xs

/-- Insertion sort of keys by `strLe`, the model of `.sort()`. -/
def sortStrings : List String → List String
  | [] => []
  | k :: ks => insertSortedKey k (sortStrings ks)

/-- First-occurrence deduplication, the uniqueness `Object.keys` has on
any object. -/
def dedupKeysAux (seen : List String) : List String → List String
  | [] => []
  | k :: ks =>
    if seen.contains k then dedupKeysAux seen ks
    else k :: dedupKeysAux (k :: seen) ks

/-- Embedding of `sortObjectKeys` (add-dependency.ts:121-128) applied to
an object's field list: rebuild the object following its keys in sorted
order. -/
def sortObjectKeys (fields : List (String × Json)) : List (String × Json) :=
  let sortedKeys := sortStrings (dedupKeysAux [] (fields.map Prod.fst))
  sortedKeys.filterMap (fun k => (jsonLookup fields k).map (fun v => (k, v)))

/-- JavaScript `s.endsWith(suffix)`, expressed on the character data. -/
def strEndsWith (s suffix : String) : Bool :=
  suffix.data.isSuffixOf s.data

/-- The configured dependency name (add-dependency.ts:7). -/
def PACKAGE_NAME : String := "arkregex"

/-- The configured version string (add-dependency.ts:8). -/
def PACKAGE_VERSION : String := "0.0.5"

/-- Embedding of the manifest editor's `transform`
(add-dependency.ts:11-63).  Inputs: the manifest's path, the result of
`JSON.parse` on its text (`none` when parsing threw, which the code
catches), and the result of the filesystem scan `checkForPackageImports`
(an I/O routine, represented by its boolean outcome).  The result is
`ok none` for the `null` no-change sentinel, `ok (some j)` for the
updated structure that `JSON.stringify` then serialises (member order of
the structure is the key order of the output text), and `error ()` for a
thrown `TypeError`. -/
def addDependency (filename : String) (parsed : Option Json) (hasImport : Bool) :
    Except Unit (Option Json) :=
  if !(strEndsWith filename "package.json") then .ok none
  else match parsed with
  | none => .ok none
  | some packageJson =>
    match jsMember packageJson "name", jsMember packageJson "version" with
    | .error e, _ => .error e
    | .ok _, .error e => .error e
    | .ok namev, .ok versionv =>
      if !(jsTruthy namev) && !(jsTruthy versionv) then .ok none
      else match jsMember packageJson "dependencies", jsMember packageJson "devDependencies" with
      | .error e, _ => .error e
      | .ok _, .error e => .error e
      | .ok depsv, .ok devv =>
        if jsTruthy (optChain depsv PACKAGE_NAME) || jsTruthy (optChain devv PACKAGE_NAME) then
          .ok none
        else if !hasImport then .ok none
        else
          let depsBase : Json := if jsTruthy depsv then depsv.getD .null else .obj []
          match jsSetProp depsBase PACKAGE_NAME (.str PACKAGE_VERSION) with
          | .error e => .error e
          | .ok depsUpdated =>
            let depsSorted : Json := match depsUpdated with
              | .obj fields => .obj (sortObjectKeys fields)
              | v => v
            match jsSetProp packageJson "dependencies" depsSorted with
            | .error e => .error e
            | .ok withDeps =>
              if jsTruthy devv then
                -- `sortObjectKeys` is only applied to object-valued groups;
                -- a truthy primitive here is outside the modelled fragment
                -- (JavaScript would rebuild it from its indices).
                match devv.getD .null with
                | .obj fields =>
                  match jsSetProp withDeps "devDependencies" (.obj (sortObjectKeys fields)) with
                  | .error e => .error e
                  | .ok final => .ok (some final)
                | _ => .error ()
              else .ok (some withDeps)

/-! ## Claim C3: the identifier rule of the static-value classifier -/

/-- The spec's reading of the identifier rule, for comparison with the
code: an identifier bound by a local declaration is static iff the
declaration uses the immutable-binding form and its initializer is
itself classified static by a recursive call. -/
def specStaticLocalIdent (declValue : Option Expr) (declParentIsVarDecl : Bool)
    (declKindText : Option String) : Bool :=
  match declValue with
  | some value =>
    declParentIsVarDecl && (declKindText == some "const") && isStaticallyKnown value
  | none => false

/-- C3 counterexample: a `const p = "a" + "b"` binding.  The initializer
is a static concatenation, so the claim classifies the identifier `p` as
static, but `isStaticallyKnown` only recurses into initializers that are
themselves `string` or `template_string` nodes and classifies `p` as
dynamic. -/
theorem c3_const_concat_counterexample :
    isStaticallyKnown (.ident (some "local") true
      (some (.binary (some "+") (some (.str "\"a\"")) (some (.str "\"b\"")) "\"a\" + \"b\""))
      true (some "const") "p") = false ∧
    specStaticLocalIdent
      (some (.binary (some "+") (some (.str "\"a\"")) (some (.str "\"b\"")) "\"a\" + \"b\""))
      true (some "const") = true := by
  constructor <;> rfl

/-- C3 (amended): an identifier bound by a local declaration is
classified static iff its declaration's initializer is itself a string
literal or a template-literal node, the declaration uses the
immutable-binding form `const`, and the initializer is classified static
by the recursive call (in particular a `const` initialized with a static
concatenation or a parenthesized string literal is classified
dynamic). -/
theorem c3_local_ident_static_rule (declaratorFound : Bool) (declValue : Option Expr)
    (declParentIsVarDecl : Bool) (declKindText : Option String) (text : String) :
    isStaticallyKnown (.ident (some "local") declaratorFound declValue
        declParentIsVarDecl declKindText text) =
      (declaratorFound &&
        match declValue with
        | some value =>
          (value.kindOf == "string" || value.kindOf == "template_string") &&
            declParentIsVarDecl && (declKindText == some "const") && isStaticallyKnown value
        | none => false) := by
  cases declaratorFound with
  | false => cases declValue <;> simp [isStaticallyKnown]
  | true =>
    cases declValue with
    | none => simp [isStaticallyKnown]
    | some value =>
      simp only [isStaticallyKnown, Bool.true_and]
      cases h : ((value.kindOf == "string" || value.kindOf == "template_string")
          && declParentIsVarDecl && (declKindText == some "const")) <;>
        simp_all [Bool.and_assoc]

/-! ## Claim C2: the new-import decision -/

/-- The spec's reading of the new-import decision, for comparison with
the code: a new import line is needed unless an import of the function
already exists under the exact binding name chosen for the
replacements. -/
def specNeedsNewImport (importHas : Bool) (importAlias : Option String)
    (hasConflict : Bool) : Bool :=
  !(importHas &&
    (importAlias.getD "regex" == chosenFunctionName importHas importAlias hasConflict))

/-- C2 counterexample: a file with a conflict and an existing aliased
binding `import { regex as myRegex } ...`.  The chosen binding name is
the alternate `arkregex` and no import exists under that name, so the
claim requires a new import; the code adds none. -/
theorem c2_conflict_with_alias_counterexample :
    needsNewImport true (some "myRegex") true = false ∧
    specNeedsNewImport true (some "myRegex") true = true ∧
    chosenFunctionName true (some "myRegex") true = "arkregex" := by
  refine ⟨rfl, by decide, rfl⟩

/-- C2 (amended): a new import line is added iff no `regex` import from
the module exists at all, or a conflict exists and the existing import
is un-aliased.  When a conflict exists the binding name for all
replacements is the alternate `arkregex`; when a conflict coexists with
an aliased import, no import is added even though the replacements use
the alternate name.  Whenever an import is generated (in the reachable
states, where an alias implies an import was found), it binds exactly
the chosen name. -/
theorem c2_import_need_rule (importHas : Bool) (importAlias : Option String)
    (hasConflict : Bool) :
    (needsNewImport importHas importAlias hasConflict = true ↔
      (importHas = false ∨ (hasConflict = true ∧ importAlias = none))) ∧
    (hasConflict = true → chosenFunctionName importHas importAlias hasConflict = "arkregex") ∧
    (importHas = true → hasConflict = true → importAlias ≠ none →
      needsNewImport importHas importAlias hasConflict = false) ∧
    ((importAlias ≠ none → importHas = true) →
      needsNewImport importHas importAlias hasConflict = true →
      generatedImportBinding (chosenFunctionName importHas importAlias hasConflict) =
        chosenFunctionName importHas importAlias hasConflict) := by
  cases importHas <;> cases hasConflict <;> cases importAlias <;>
    simp [needsNewImport, chosenFunctionName, generatedImportBinding]

/-- C2 witness: with a conflict and an aliased import present, the code
adds no new import line. -/
theorem c2_import_need_rule_witness :
    needsNewImport true (some "myAlias") true = false :=
  (c2_import_need_rule true (some "myAlias") true).2.2.1 rfl rfl (by simp)

/-! ## Claim C10: the call form is never transformed -/

/-- C10: the call-form flag is compiled to `false`, and consequently the
plain `RegExp(...)` call sites of a file contribute nothing to the
transformation: the result is the same whatever call sites the file
contains, so call-form invocations are never rewritten. -/
theorem c10_call_form_disabled :
    TRANSFORM_CALL_FORM = false ∧
    ∀ (f : FileModel) (cs : List CallSite),
      transform { f with callSites := cs } = transform { f with callSites := [] } := by
  exact ⟨rfl, fun f cs => rfl⟩

/-! ## Structure of `processSite` -/

theorem lineStartFrom_le (s : List Char) (n : Nat) : lineStartFrom s n ≤ n := by
  induction n with
  | zero => simp [lineStartFrom]
  | succ j ih =>
    simp only [lineStartFrom]
    split
    · exact Nat.le_refl _
    · exact Nat.le_trans ih (Nat.le_succ j)

theorem lineStartFrom_zero_or_newline (s : List Char) (n : Nat) :
    lineStartFrom s n = 0 ∨ s.get? (lineStartFrom s n - 1) = some '\n' := by
  induction n with
  | zero => exact Or.inl rfl
  | succ j ih =>
    simp only [lineStartFrom]
    split
    · next h => exact Or.inr (by simpa using h)
    · exact ih

theorem lineStartFrom_no_newline (s : List Char) (n : Nat) :
    ∀ j, lineStartFrom s n ≤ j → j < n → s.get? j ≠ some '\n' := by
  induction n with
  | zero => intro j _ hj; omega
  | succ j ih =>
    intro m hm hlt
    simp only [lineStartFrom] at hm
    by_cases h : s.get? j = some '\n'
    · rw [if_pos h] at hm; omega
    · rw [if_neg h] at hm
      rcases Nat.lt_succ_iff_lt_or_eq.mp hlt with h' | h'
      · exact ih m hm h'
      · subst h'; exact h

/-- On an accepted candidate site, `processSite` emits the comment
annotator's insertions followed by one replacement of the site's range,
whose text is the built replacement, wrapped in parentheses exactly when
the site is the object of a member expression. -/
theorem processSite_accepted (sourceText : List Char) (functionName : String) (s : Site)
    (i : RegExpIdent) (children : List Expr) (firstArg : Expr)
    (hident : s.identFound = some i) (hglob : isGlobalRegExp i = true)
    (hargs : s.args = some children)
    (hfirst : (children.filter notArgPunct)[0]? = some firstArg)
    (hlen : (children.filter notArgPunct).length ≤ 2) :
    processSite sourceText functionName s =
      (if !(isStaticallyKnown firstArg) ||
          !(match (children.filter notArgPunct)[1]? with
            | some a => isStaticallyKnown a
            | none => true) then
        scheduleComment sourceText s.startIndex
      else []) ++
      [⟨s.startIndex, s.endIndex,
        (if s.isMemberObject then
          "(" ++ buildReplacement functionName firstArg ((children.filter notArgPunct)[1]?)
            (isStaticallyKnown firstArg)
            (match (children.filter notArgPunct)[1]? with
             | some a => isStaticallyKnown a
             | none => true) ++ ")"
        else buildReplacement functionName firstArg ((children.filter notArgPunct)[1]?)
          (isStaticallyKnown firstArg)
          (match (children.filter notArgPunct)[1]? with
           | some a => isStaticallyKnown a
           | none => true)).toList⟩] := by
  have hnot : ¬ ((children.filter notArgPunct).length > 2) := by omega
  simp only [processSite, hident, hglob, hargs, getArguments, List.get?_eq_getElem?,
    hfirst, if_neg hnot, Bool.not_true, Bool.false_eq_true, if_false]

/-- A candidate site rejected by the guards produces no edits, whatever
the file text and binding name are. -/
theorem processSite_of_not_accepted (sourceText : List Char) (functionName : String)
    (s : Site) (h : siteAccepted s = false) :
    processSite sourceText functionName s = [] := by
  cases hid : s.identFound with
  | none => simp [processSite, hid]
  | some i =>
    cases hg : isGlobalRegExp i with
    | false => simp [processSite, hid, hg]
    | true =>
      cases ha : s.args with
      | none => simp [processSite, hid, hg, ha]
      | some children =>
        cases hf : (children.filter notArgPunct)[0]? with
        | none => simp [processSite, getArguments, hid, hg, ha, hf]
        | some firstArg =>
          have h2 : (children.filter notArgPunct).length > 2 := by
            simp [siteAccepted, hid, hg, ha, getArguments, hf] at h
            exact h
          simp [processSite, getArguments, hid, hg, ha, hf, h2]

/-! ## Claim C4: the argument-count filter -/

/-- C4: a candidate site with zero or more than two effective arguments
(the children of its argument list that are not delimiters or comments)
produces no edits at all — neither a replacement nor a diagnostic
comment — and conversely any site that produces an edit has exactly one
or two effective arguments. -/
theorem c4_argument_count_filter (sourceText : List Char) (functionName : String)
    (s : Site) :
    ((effectiveArgs s).length = 0 ∨ 2 < (effectiveArgs s).length →
      processSite sourceText functionName s = []) ∧
    (processSite sourceText functionName s ≠ [] →
      (effectiveArgs s).length = 1 ∨ (effectiveArgs s).length = 2) := by
  have part1 : (effectiveArgs s).length = 0 ∨ 2 < (effectiveArgs s).length →
      processSite sourceText functionName s = [] := by
    intro h
    cases hid : s.identFound with
    | none => simp [processSite, hid]
    | some i =>
      cases hg : isGlobalRegExp i with
      | false => simp [processSite, hid, hg]
      | true =>
        cases ha : s.args with
        | none => simp [processSite, hid, hg, ha]
        | some children =>
          simp only [effectiveArgs, ha] at h
          cases h with
          | inl h0 =>
            have hnil : children.filter notArgPunct = [] := List.length_eq_zero.mp h0
            simp [processSite, getArguments, hid, hg, ha, hnil]
          | inr h2 =>
            cases hf : (children.filter notArgPunct)[0]? with
            | none => simp [processSite, getArguments, hid, hg, ha, hf]
            | some firstArg => simp [processSite, getArguments, hid, hg, ha, hf, h2]
  refine ⟨part1, fun hne => ?_⟩
  by_contra hc
  push_neg at hc
  exact hne (part1 (by omega))

/-- C4 witness: a zero-argument site `new RegExp()` and a
three-argument site `new RegExp(a, b, c)` are both left untouched. -/
theorem c4_argument_count_filter_witness :
    processSite [] "regex"
      { identFound := some ⟨false, none⟩,
        args := some [.other "(" "(", .other ")" ")"],
        isMemberObject := false, startIndex := 0, endIndex := 12 } = [] ∧
    processSite [] "regex"
      { identFound := some ⟨false, none⟩,
        args := some [.other "(" "(", .ident none false none false none "a", .other "," ",",
          .ident none false none false none "b", .other "," ",",
          .ident none false none false none "c", .other ")" ")"],
        isMemberObject := false, startIndex := 0, endIndex := 19 } = [] :=
  ⟨(c4_argument_count_filter [] "regex" _).1 (by decide),
   (c4_argument_count_filter [] "regex" _).1 (by decide)⟩

/-! ## Claim C5: precedence wrapping for member receivers -/

/-- C5: on an accepted site, the replacement text emitted for a site
that is the receiver object of a property access is the built
call-plus-coercion text wrapped in one extra pair of parentheses, and
the replacement for any other accepted site is the built text with no
wrapping parentheses. -/
theorem c5_member_receiver_wrap (sourceText : List Char) (functionName : String) (s : Site)
    (i : RegExpIdent) (children : List Expr) (firstArg : Expr)
    (hident : s.identFound = some i) (hglob : isGlobalRegExp i = true)
    (hargs : s.args = some children)
    (hfirst : (children.filter notArgPunct)[0]? = some firstArg)
    (hlen : (children.filter notArgPunct).length ≤ 2) :
    (s.isMemberObject = true →
      processSite sourceText functionName s =
        (if !(isStaticallyKnown firstArg) ||
            !(match (children.filter notArgPunct)[1]? with
              | some a => isStaticallyKnown a
              | none => true) then
          scheduleComment sourceText s.startIndex
        else []) ++
        [⟨s.startIndex, s.endIndex,
          ("(" ++ buildReplacement functionName firstArg ((children.filter notArgPunct)[1]?)
            (isStaticallyKnown firstArg)
            (match (children.filter notArgPunct)[1]? with
             | some a => isStaticallyKnown a
             | none => true) ++ ")").toList⟩]) ∧
    (s.isMemberObject = false →
      processSite sourceText functionName s =
        (if !(isStaticallyKnown firstArg) ||
            !(match (children.filter notArgPunct)[1]? with
              | some a => isStaticallyKnown a
              | none => true) then
          scheduleComment sourceText s.startIndex
        else []) ++
        [⟨s.startIndex, s.endIndex,
          (buildReplacement functionName firstArg ((children.filter notArgPunct)[1]?)
            (isStaticallyKnown firstArg)
            (match (children.filter notArgPunct)[1]? with
             | some a => isStaticallyKnown a
             | none => true)).toList⟩]) := by
  have hmain := processSite_accepted sourceText functionName s i children firstArg
    hident hglob hargs hfirst hlen
  constructor
  · intro hm; rw [hmain, hm]; simp
  · intro hm; rw [hmain, hm]; simp

/-- C5 witness: `new RegExp("x").test(y)` — the site is the receiver of
`.test`, and the emitted replacement is `(regex("x") as RegExp)`. -/
theorem c5_member_receiver_wrap_witness :
    processSite [] "regex"
      { identFound := some ⟨false, none⟩,
        args := some [.other "(" "(", .str "\"x\"", .other ")" ")"],
        isMemberObject := true, startIndex := 0, endIndex := 15 } =
      [⟨0, 15, "(regex(\"x\") as RegExp)".toList⟩] := by
  have h := (c5_member_receiver_wrap [] "regex"
    { identFound := some ⟨false, none⟩,
      args := some [.other "(" "(", .str "\"x\"", .other ")" ")"],
      isMemberObject := true, startIndex := 0, endIndex := 15 }
    ⟨false, none⟩ [.other "(" "(", .str "\"x\"", .other ")" ")"] (.str "\"x\"")
    rfl rfl rfl rfl (by decide)).1 rfl
  rw [h]
  decide

/-! ## Claim C8: a single argument means static flags -/

/-- C8: on an accepted site with exactly one effective argument, the
flags classification is static, so the replacement has no second
argument and no flags coercion, and a diagnostic comment is scheduled
only when the pattern argument itself is dynamic — never because the
flags argument is absent. -/
theorem c8_single_arg_flags_static (sourceText : List Char) (functionName : String)
    (s : Site) (i : RegExpIdent) (children : List Expr) (firstArg : Expr)
    (hident : s.identFound = some i) (hglob : isGlobalRegExp i = true)
    (hargs : s.args = some children)
    (hone : children.filter notArgPunct = [firstArg]) :
    processSite sourceText functionName s =
      (if isStaticallyKnown firstArg then []
       else scheduleComment sourceText s.startIndex) ++
      [⟨s.startIndex, s.endIndex,
        (if s.isMemberObject then
          "(" ++ buildReplacement functionName firstArg none (isStaticallyKnown firstArg) true ++ ")"
        else
          buildReplacement functionName firstArg none (isStaticallyKnown firstArg) true).toList⟩] ∧
    buildReplacement functionName firstArg none (isStaticallyKnown firstArg) true =
      functionName ++ "(" ++
        (if isStaticallyKnown firstArg then firstArg.textOf
         else firstArg.textOf ++ " as Parameters<typeof " ++ functionName ++ ">[0]") ++
        ") as RegExp" := by
  constructor
  · have hmain := processSite_accepted sourceText functionName s i children firstArg
      hident hglob hargs (by rw [hone]; rfl) (by rw [hone]; exact Nat.le_of_lt (by simp))
    rw [hmain, hone]
    cases hst : isStaticallyKnown firstArg <;> simp
  · cases hst : isStaticallyKnown firstArg <;>
      simp [buildReplacement, hst, String.append_assoc]

/-- C8 witness: a single static argument produces the bare replacement
with no comment and no flags coercion. -/
theorem c8_single_arg_flags_static_witness :
    processSite [] "regex"
      { identFound := some ⟨false, none⟩,
        args := some [.other "(" "(", .str "\"\\d+\"", .other ")" ")"],
        isMemberObject := false, startIndex := 0, endIndex := 17 } =
      [⟨0, 17, "regex(\"\\d+\") as RegExp".toList⟩] := by
  have h := (c8_single_arg_flags_static [] "regex"
    { identFound := some ⟨false, none⟩,
      args := some [.other "(" "(", .str "\"\\d+\"", .other ")" ")"],
      isMemberObject := false, startIndex := 0, endIndex := 17 }
    ⟨false, none⟩ [.other "(" "(", .str "\"\\d+\"", .other ")" ")"] (.str "\"\\d+\"")
    rfl rfl rfl rfl).1
  rw [h]
  decide

/-! ## Claim C6: the diagnostic comment policy -/

/-- An accepted site's guard data can be recovered from `siteAccepted`. -/
theorem siteAccepted_true_elim (s : Site) (h : siteAccepted s = true) :
    ∃ i children firstArg, s.identFound = some i ∧ isGlobalRegExp i = true ∧
      s.args = some children ∧ (children.filter notArgPunct)[0]? = some firstArg ∧
      (children.filter notArgPunct).length ≤ 2 := by
  cases hid : s.identFound with
  | none => simp [siteAccepted, hid] at h
  | some i =>
    cases hg : isGlobalRegExp i with
    | false => simp [siteAccepted, hid, hg] at h
    | true =>
      cases ha : s.args with
      | none => simp [siteAccepted, hid, hg, ha] at h
      | some children =>
        cases hf : (children.filter notArgPunct)[0]? with
        | none => simp [siteAccepted, getArguments, List.get?_eq_getElem?, hid, hg, ha, hf] at h
        | some firstArg =>
          simp only [siteAccepted, getArguments, List.get?_eq_getElem?, hid, hg, ha, hf,
            Bool.not_true, Bool.false_eq_true, if_false, Bool.not_eq_true',
            decide_eq_false_iff_not, Nat.not_lt] at h
          exact ⟨i, children, firstArg, rfl, hg, rfl, hf, h⟩

/-- C6: the comment annotator schedules at most one insertion per
accepted dynamic site, placed exactly at the start of the line
containing the site, and skipped exactly when the marker is already in
the current line's leading comment or in the preceding line; on an
accepted site where pattern and flags are both static the site
contributes its replacement alone; and in a file all of whose candidate
sites have only statically-known arguments, every edit of the
transformation is a plain range replacement of one of the candidate
sites — no comment insertion at all. -/
theorem c6_diagnostic_comment_policy :
    (∀ (text : List Char) (start : Nat),
      (todoSkip text start = true → scheduleComment text start = []) ∧
      (todoSkip text start = false →
        scheduleComment text start =
          [⟨lineStartFrom text start, lineStartFrom text start, todoComment.toList⟩] ∧
        lineStartFrom text start ≤ start ∧
        (lineStartFrom text start = 0 ∨
          text.get? (lineStartFrom text start - 1) = some '\n') ∧
        ∀ j, lineStartFrom text start ≤ j → j < start → text.get? j ≠ some '\n')) ∧
    (∀ (text : List Char) (functionName : String) (s : Site) i children firstArg,
      s.identFound = some i → isGlobalRegExp i = true → s.args = some children →
      (children.filter notArgPunct)[0]? = some firstArg →
      (children.filter notArgPunct).length ≤ 2 →
      ((isStaticallyKnown firstArg &&
          (match (children.filter notArgPunct)[1]? with
           | some a => isStaticallyKnown a
           | none => true)) = false →
        ∃ r, processSite text functionName s =
          scheduleComment text s.startIndex ++ [⟨s.startIndex, s.endIndex, r⟩]) ∧
      ((isStaticallyKnown firstArg &&
          (match (children.filter notArgPunct)[1]? with
           | some a => isStaticallyKnown a
           | none => true)) = true →
        ∃ r, processSite text functionName s = [⟨s.startIndex, s.endIndex, r⟩])) ∧
    (∀ (f : FileModel) (functionName : String),
      (∀ s ∈ f.sites, ∀ a ∈ effectiveArgs s, isStaticallyKnown a = true) →
      ∀ e ∈ transformEdits f functionName, ∃ s ∈ f.sites, ∃ r,
        e = Edit.mk s.startIndex s.endIndex r) := by
  refine ⟨?_, ?_, ?_⟩
  · intro text start
    constructor
    · intro hskip; simp [scheduleComment, hskip]
    · intro hskip
      refine ⟨by simp [scheduleComment, hskip], lineStartFrom_le text start,
        lineStartFrom_zero_or_newline text start, lineStartFrom_no_newline text start⟩
  · intro text functionName s i children firstArg hident hglob hargs hfirst hlen
    have hmain := processSite_accepted text functionName s i children firstArg
      hident hglob hargs hfirst hlen
    constructor
    · intro hdyn
      rw [hmain]
      rw [if_pos]
      · exact ⟨_, rfl⟩
      · rw [Bool.or_eq_true, Bool.not_eq_true', Bool.not_eq_true']
        rcases Bool.and_eq_false_iff.mp hdyn with h | h
        · exact Or.inl h
        · exact Or.inr h
    · intro hstat
      rw [hmain]
      rw [if_neg, List.nil_append]
      · exact ⟨_, rfl⟩
      · rw [Bool.or_eq_true, Bool.not_eq_true', Bool.not_eq_true']
        rw [Bool.and_eq_true] at hstat
        rintro (h | h)
        · rw [hstat.1] at h; cases h
        · rw [hstat.2] at h; cases h
  · intro f functionName hstatic e he
    have hcall : (if TRANSFORM_CALL_FORM then f.callSites else []) = [] := rfl
    simp only [transformEdits, hcall, List.flatMap_nil,
      List.append_nil, List.mem_flatMap] at he
    obtain ⟨s, hs, hes⟩ := he
    cases hacc : siteAccepted s with
    | false =>
      rw [processSite_of_not_accepted _ _ _ hacc] at hes
      cases hes
    | true =>
      obtain ⟨i, children, firstArg, hident, hglob, hargs, hfirst, hlen⟩ :=
        siteAccepted_true_elim s hacc
      have hmain := processSite_accepted f.sourceText functionName s i children firstArg
        hident hglob hargs hfirst hlen
      have hargstat : ∀ a ∈ children.filter notArgPunct, isStaticallyKnown a = true := by
        intro a ha
        exact hstatic s hs a (by simp only [effectiveArgs, hargs]; exact ha)
      have h1 : isStaticallyKnown firstArg = true :=
        hargstat firstArg (List.getElem?_mem hfirst)
      have h2 : (match (children.filter notArgPunct)[1]? with
          | some a => isStaticallyKnown a
          | none => true) = true := by
        cases hsec : (children.filter notArgPunct)[1]? with
        | none => rfl
        | some a => exact hargstat a (List.getElem?_mem hsec)
      rw [hmain, h1, h2] at hes
      simp only [Bool.not_true, Bool.or_self, Bool.false_eq_true, if_false,
        List.nil_append, List.mem_singleton] at hes
      exact ⟨s, hs, _, hes⟩

/-- C6 witness: with no existing marker, exactly one comment insertion
is scheduled at the start of the site's line. -/
theorem c6_diagnostic_comment_policy_witness :
    scheduleComment [] 5 = [⟨0, 0, todoComment.toList⟩] := by
  have h := ((c6_diagnostic_comment_policy.1 [] 5).2 (by decide)).1
  exact h.trans (by decide)

/-! ## Claim C1: idempotence and surviving candidate sites -/

/-- A concrete file with one transformable site `new RegExp("x")` and
one rejected zero-argument site `new RegExp()`. -/
def c1File : FileModel :=
  { sourceText := "const a = new RegExp(\"x\");\nconst b = new RegExp();\n".toList
    sites :=
      [{ identFound := some ⟨false, none⟩,
         args := some [.other "(" "(", .str "\"x\"", .other ")" ")"],
         isMemberObject := false, startIndex := 10, endIndex := 25 },
       { identFound := some ⟨false, none⟩,
         args := some [.other "(" "(", .other ")" ")"],
         isMemberObject := false, startIndex := 37, endIndex := 49 }]
    callSites := []
    importHas := false, importAlias := none, hasConflict := false
    existingImportTexts := [] }

/-- C1 counterexample: the first run on `c1File` is non-null, yet its
rewritten output still contains the candidate pattern `new RegExp(` —
the zero-argument site was rejected, left in place, and survives into
the output, contradicting the claim that the output of a non-null run
contains no remaining candidate sites. -/
theorem c1_output_retains_candidate :
    (transform c1File).isSome = true ∧
    containsSub ("new RegExp(".toList) ((transform c1File).getD []) = true := by
  constructor <;> decide

/-- C1 (amended): the second run returns the no-change sentinel because
every candidate site it finds in the first run's output is a site the
first run rejected, and rejection depends only on the site's own data,
so each is rejected again and no edits accumulate; rejected candidate
sites may however survive verbatim in the output of a non-null run. -/
theorem c1_second_run_returns_none (f : FileModel)
    (h : ∀ s ∈ f.sites, siteAccepted s = false) :
    (∀ (text : List Char) (functionName : String) (s : Site),
      siteAccepted s = false → processSite text functionName s = []) ∧
    transform f = none := by
  refine ⟨fun text functionName s hs => processSite_of_not_accepted text functionName s hs, ?_⟩
  have hedits : ∀ functionName, transformEdits f functionName = [] := by
    intro functionName
    have hcall : (if TRANSFORM_CALL_FORM then f.callSites else []) = [] := rfl
    simp only [transformEdits, hcall, List.flatMap_nil, List.append_nil]
    rw [List.flatMap_eq_nil_iff]
    exact fun s hs => processSite_of_not_accepted _ _ s (h s hs)
  simp [transform, hedits]

/-- C1 witness: a file whose only candidate sites are a zero-argument
and a three-argument constructor call transforms to the sentinel. -/
theorem c1_second_run_returns_none_witness :
    transform
      { sourceText := "const b = new RegExp();\nconst c = new RegExp(a, b, c);\n".toList
        sites :=
          [{ identFound := some ⟨false, none⟩,
             args := some [.other "(" "(", .other ")" ")"],
             isMemberObject := false, startIndex := 10, endIndex := 22 },
           { identFound := some ⟨false, none⟩,
             args := some [.other "(" "(", .ident none false none false none "a",
               .other "," ",", .ident none false none false none "b", .other "," ",",
               .ident none false none false none "c", .other ")" ")"],
             isMemberObject := false, startIndex := 34, endIndex := 54 }]
        callSites := []
        importHas := false, importAlias := none, hasConflict := false
        existingImportTexts := [] } = none :=
  (c1_second_run_returns_none _ (by
    intro s hs
    simp only [List.mem_cons, List.not_mem_nil, or_false] at hs
    rcases hs with h | h <;> subst h <;> rfl)).2

/-! ## Claim C7: import-line insertion and its fallbacks -/

/-- The start indices of all lines of a text. -/
def lineStartsOfList (s : List Char) : List Nat :=
  0 :: (List.range s.length).filterMap
    (fun j => if s.get? j = some '\n' then some (j + 1) else none)

/-- The spec's reading of the second fallback, for comparison with the
code: the start of the last line of the text that begins with the import
keyword. -/
def specKeywordLinePos (s : List Char) : Option Nat :=
  ((lineStartsOfList s).filter
    (fun l => "import ".toList.isPrefixOf (s.drop l))).getLast?

/-- The import inserter as the claim describes it: identical to
`insertImport` except that the second fallback anchors on the last line
beginning with the import keyword instead of the last occurrence of
`import ` anywhere. -/
def specInsertImport (existingImportTexts : List (List Char)) (importStatement : List Char)
    (newSource : List Char) : List Char :=
  match existingImportTexts.getLast? with
  | some lastImportText =>
    match lastIndexOfList newSource lastImportText with
    | some lastIndex =>
      let insertPos := lastIndex + lastImportText.length +
        skipWsAux (newSource.drop (lastIndex + lastImportText.length))
      newSource.take insertPos ++ importStatement ++ newSource.drop insertPos
    | none =>
      match specKeywordLinePos newSource with
      | some l =>
        match indexOfFrom newSource '\n' l with
        | some lineEnd =>
          newSource.take (lineEnd + 1) ++ importStatement ++ newSource.drop (lineEnd + 1)
        | none => newSource ++ '\n' :: importStatement
      | none => importStatement ++ newSource
  | none => importStatement ++ newSource

/-- C7 counterexample: the anchor text is absent and the last occurrence
of `import ` lies inside a string literal on a line that does not begin
with the keyword; the code inserts after that line, whereas the claim's
fallback ("after the last line beginning with the import keyword") would
insert after the first line.  The two procedures produce different
outputs on this input. -/
theorem c7_keyword_fallback_counterexample :
    insertImport ["import B from \"b\";".toList]
        "import { regex } from \"arkregex\";\n".toList
        "import A from \"a\";\nconst s = \"x import y\";\nrest;\n".toList ≠
      specInsertImport ["import B from \"b\";".toList]
        "import { regex } from \"arkregex\";\n".toList
        "import A from \"a\";\nconst s = \"x import y\";\nrest;\n".toList := by
  decide

/-- C7 (amended): the insertion procedure is total and always embeds
the line at a single position of the already-rewritten source (the
only other change being one fresh newline in the append-at-end case).
With no import statements the line is prepended at the very start.  When
the last original import's text is found, the insertion lands right
after it, skipping trailing blanks up to and including one line break.
When it is not found, the insertion goes after the end of the line
containing the last occurrence of `import ` anywhere in the text; when
that line never ends, the import is appended after a fresh newline; and
when `import ` does not occur at all, the line is prepended at the
start. -/
theorem c7_import_insertion_fallbacks (imports : List (List Char)) (stmt src : List Char) :
    (∃ pre suf, insertImport imports stmt src = pre ++ stmt ++ suf ∧
      (pre ++ suf = src ∨ (pre = src ++ ['\n'] ∧ suf = []))) ∧
    (imports = [] → insertImport imports stmt src = stmt ++ src) ∧
    (∀ last, imports.getLast? = some last → ∀ idx, lastIndexOfList src last = some idx →
      insertImport imports stmt src =
        src.take (idx + last.length + skipWsAux (src.drop (idx + last.length))) ++ stmt ++
          src.drop (idx + last.length + skipWsAux (src.drop (idx + last.length)))) ∧
    (∀ last, imports.getLast? = some last → lastIndexOfList src last = none →
      lastIndexOfList src "import ".toList = none →
      insertImport imports stmt src = stmt ++ src) ∧
    (∀ last, imports.getLast? = some last → lastIndexOfList src last = none →
      ∀ kwPos, lastIndexOfList src "import ".toList = some kwPos →
        (∀ lineEnd, indexOfFrom src '\n' kwPos = some lineEnd →
          insertImport imports stmt src =
            src.take (lineEnd + 1) ++ stmt ++ src.drop (lineEnd + 1)) ∧
        (indexOfFrom src '\n' kwPos = none →
          insertImport imports stmt src = src ++ '\n' :: stmt)) := by
  refine ⟨?_, ?_, ?_, ?_, ?_⟩
  · cases hlast : imports.getLast? with
    | none =>
      refine ⟨[], src, ?_, Or.inl rfl⟩
      simp only [insertImport, hlast, List.nil_append]
    | some last =>
      cases hidx : lastIndexOfList src last with
      | some idx =>
        refine ⟨src.take (idx + last.length + skipWsAux (src.drop (idx + last.length))),
          src.drop (idx + last.length + skipWsAux (src.drop (idx + last.length))), ?_,
          Or.inl (List.take_append_drop _ _)⟩
        simp only [insertImport, hlast, hidx]
      | none =>
        cases hkw : lastIndexOfList src "import ".toList with
        | none =>
          refine ⟨[], src, ?_, Or.inl rfl⟩
          simp only [insertImport, hlast, hidx, hkw, List.nil_append]
        | some kwPos =>
          cases hle : indexOfFrom src '\n' kwPos with
          | some lineEnd =>
            refine ⟨src.take (lineEnd + 1), src.drop (lineEnd + 1), ?_,
              Or.inl (List.take_append_drop _ _)⟩
            simp only [insertImport, hlast, hidx, hkw, hle]
          | none =>
            refine ⟨src ++ ['\n'], [], ?_, Or.inr ⟨rfl, rfl⟩⟩
            simp only [insertImport, hlast, hidx, hkw, hle]
            simp
  · intro h; subst h; simp only [insertImport, List.getLast?_nil]
  · intro last hlast idx hidx
    simp only [insertImport, hlast, hidx]
  · intro last hlast hidx hkw
    simp only [insertImport, hlast, hidx, hkw]
  · intro last hlast hidx kwPos hkw
    constructor
    · intro lineEnd hle
      simp only [insertImport, hlast, hidx, hkw, hle]
    · intro hle
      simp only [insertImport, hlast, hidx, hkw, hle]

/-- C7 witness: a file with no import statements has the import line
prepended at the very start. -/
theorem c7_import_insertion_fallbacks_witness :
    insertImport [] "import { regex } from \"arkregex\";\n".toList "body;\n".toList =
      "import { regex } from \"arkregex\";\n".toList ++ "body;\n".toList :=
  (c7_import_insertion_fallbacks [] _ _).2.1 rfl

/-! ## Claim C9: sorting and lookup lemmas -/

theorem charListLe_total (a b : List Char) : charListLe a b = true ∨ charListLe b a = true := by
  induction a generalizing b with
  | nil => exact Or.inl rfl
  | cons x xs ih =>
    cases b with
    | nil => exact Or.inr rfl
    | cons y ys =>
      by_cases h : x.toNat = y.toNat
      · rcases ih ys with h' | h'
        · exact Or.inl (by simp [charListLe, h, h'])
        · exact Or.inr (by simp [charListLe, h.symm, h'])
      · rcases Nat.lt_or_ge x.toNat y.toNat with hlt | hge
        · exact Or.inl (by simp [charListLe, h, hlt])
        · have hgt : y.toNat < x.toNat := by omega
          refine Or.inr ?_
          simp only [charListLe]
          rw [if_neg (by omega)]
          simpa using hgt

theorem charListLe_trans (a b c : List Char) (hab : charListLe a b = true)
    (hbc : charListLe b c = true) : charListLe a c = true := by
  induction a generalizing b c with
  | nil => rfl
  | cons x xs ih =>
    cases b with
    | nil => simp [charListLe] at hab
    | cons y ys =>
      cases c with
      | nil => simp [charListLe] at hbc
      | cons z zs =>
        simp only [charListLe] at hab hbc ⊢
        by_cases hxy : x.toNat = y.toNat
        · by_cases hyz : y.toNat = z.toNat
          · rw [if_pos hxy] at hab
            rw [if_pos hyz] at hbc
            rw [if_pos (hxy.trans hyz)]
            exact ih ys zs hab hbc
          · rw [if_neg hyz] at hbc
            have hyz' : y.toNat < z.toNat := by simpa using hbc
            have hxz : x.toNat < z.toNat := by omega
            rw [if_neg (by omega)]
            simpa using hxz
        · rw [if_neg hxy] at hab
          have hxy' : x.toNat < y.toNat := by simpa using hab
          by_cases hyz : y.toNat = z.toNat
          · rw [if_neg (by omega)]
            simpa using (by omega : x.toNat < z.toNat)
          · rw [if_neg hyz] at hbc
            have hyz' : y.toNat < z.toNat := by simpa using hbc
            rw [if_neg (by omega)]
            simpa using (by omega : x.toNat < z.toNat)

theorem strLe_total (a b : String) : strLe a b = true ∨ strLe b a = true :=
  charListLe_total a.data b.data

theorem strLe_trans (a b c : String) (hab : strLe a b = true) (hbc : strLe b c = true) :
    strLe a c = true :=
  charListLe_trans a.data b.data c.data hab hbc

theorem mem_insertSortedKey (a k : String) (l : List String) :
    a ∈ insertSortedKey k l ↔ a = k ∨ a ∈ l := by
  induction l with
  | nil => simp [insertSortedKey]
  | cons x xs ih =>
    simp only [insertSortedKey]
    split
    · simp
    · simp only [List.mem_cons, ih]
      tauto

theorem mem_sortStrings (a : String) (l : List String) :
    a ∈ sortStrings l ↔ a ∈ l := by
  induction l with
  | nil => simp [sortStrings]
  | cons x xs ih =>
    simp only [sortStrings, mem_insertSortedKey, ih, List.mem_cons]

theorem nodup_insertSortedKey (k : String) (l : List String) (hk : k ∉ l)
    (hl : l.Nodup) : (insertSortedKey k l).Nodup := by
  induction l with
  | nil => simp [insertSortedKey]
  | cons x xs ih =>
    simp only [insertSortedKey]
    split
    · exact List.nodup_cons.mpr ⟨hk, hl⟩
    · rw [List.nodup_cons] at hl
      refine List.nodup_cons.mpr ⟨?_, ih (fun h => hk (List.mem_cons_of_mem x h)) hl.2⟩
      rw [mem_insertSortedKey]
      rintro (h | h)
      · exact hk (h ▸ List.mem_cons_self x xs)
      · exact hl.1 h

theorem nodup_sortStrings (l : List String) (hl : l.Nodup) : (sortStrings l).Nodup := by
  induction l with
  | nil => exact hl
  | cons x xs ih =>
    rw [List.nodup_cons] at hl
    exact nodup_insertSortedKey x (sortStrings xs)
      (fun h => hl.1 ((mem_sortStrings x xs).mp h)) (ih hl.2)

theorem pairwise_insertSortedKey (k : String) (l : List String)
    (hl : l.Pairwise (fun a b => strLe a b = true)) :
    (insertSortedKey k l).Pairwise (fun a b => strLe a b = true) := by
  induction l with
  | nil => simp [insertSortedKey]
  | cons x xs ih =>
    simp only [insertSortedKey]
    rw [List.pairwise_cons] at hl
    split
    · next hle =>
      refine List.pairwise_cons.mpr ⟨?_, List.pairwise_cons.mpr hl⟩
      intro b hb
      rcases List.mem_cons.mp hb with h | h
      · exact h ▸ hle
      · exact strLe_trans k x b hle (hl.1 b h)
    · next hle =>
      have hxk : strLe x k = true := by
        rcases strLe_total k x with h | h
        · exact absurd h hle
        · exact h
      refine List.pairwise_cons.mpr ⟨?_, ih hl.2⟩
      intro b hb
      rcases (mem_insertSortedKey b k xs).mp hb with h | h
      · exact h ▸ hxk
      · exact hl.1 b h

theorem pairwise_sortStrings (l : List String) :
    (sortStrings l).Pairwise (fun a b => strLe a b = true) := by
  induction l with
  | nil => exact List.Pairwise.nil
  | cons x xs ih => exact pairwise_insertSortedKey x (sortStrings xs) ih

theorem mem_dedupKeysAux (a : String) (seen l : List String) :
    a ∈ dedupKeysAux seen l ↔ a ∈ l ∧ a ∉ seen := by
  induction l generalizing seen with
  | nil => simp [dedupKeysAux]
  | cons x xs ih =>
    simp only [dedupKeysAux]
    by_cases hx : x ∈ seen
    · rw [if_pos (List.elem_eq_true_of_mem hx), ih]
      constructor
      · rintro ⟨h, hs⟩
        exact ⟨List.mem_cons_of_mem x h, hs⟩
      · rintro ⟨h, hs⟩
        rcases List.mem_cons.mp h with he | he
        · subst he; exact absurd hx hs
        · exact ⟨he, hs⟩
    · rw [if_neg (fun hc => hx (List.mem_of_elem_eq_true hc))]
      constructor
      · intro h
        rcases List.mem_cons.mp h with he | he
        · subst he; exact ⟨List.mem_cons_self a xs, hx⟩
        · obtain ⟨h1, h2⟩ := (ih (x :: seen)).mp he
          exact ⟨List.mem_cons_of_mem x h1,
            fun hh => h2 (List.mem_cons_of_mem x hh)⟩
      · rintro ⟨h, hs⟩
        rcases List.mem_cons.mp h with he | he
        · subst he; exact List.mem_cons_self a _
        · by_cases hax : a = x
          · subst hax; exact List.mem_cons_self a _
          · refine List.mem_cons_of_mem x ((ih (x :: seen)).mpr ⟨he, fun hh => ?_⟩)
            rcases List.mem_cons.mp hh with h2 | h2
            · exact hax h2
            · exact hs h2

theorem nodup_dedupKeysAux (seen l : List String) : (dedupKeysAux seen l).Nodup := by
  induction l generalizing seen with
  | nil => exact List.nodup_nil
  | cons x xs ih =>
    simp only [dedupKeysAux]
    split
    · exact ih seen
    · refine List.nodup_cons.mpr ⟨fun hh => ?_, ih (x :: seen)⟩
      exact ((mem_dedupKeysAux x (x :: seen) xs).mp hh).2 (List.mem_cons_self x seen)



theorem jsonLookup_cons (k' : String) (v : Json) (rest : List (String × Json)) (k : String) :
    jsonLookup ((k', v) :: rest) k =
      match jsonLookup rest k with
      | some r => some r
      | none => if k' == k then some v else none := rfl

theorem jsonLookup_eq_none_iff (fs : List (String × Json)) (k : String) :
    jsonLookup fs k = none ↔ ∀ p ∈ fs, p.1 ≠ k := by
  induction fs with
  | nil => simp [jsonLookup]
  | cons p rest ih =>
    obtain ⟨k', v⟩ := p
    rw [jsonLookup_cons]
    cases hr : jsonLookup rest k with
    | some r =>
      constructor
      · intro h; cases h
      · intro h
        have h2 := ih.mpr (fun q hq => h q (List.mem_cons_of_mem _ hq))
        rw [hr] at h2; cases h2
    | none =>
      by_cases hk : (k' == k) = true
      · rw [if_pos hk]
        constructor
        · intro h; cases h
        · intro h
          exact absurd (by simpa using hk)
            (h (k', v) (List.mem_cons_self _ _))
      · rw [if_neg hk]
        constructor
        · intro _ q hq
          rcases List.mem_cons.mp hq with he | he
          · subst he
            simpa using hk
          · exact (ih.mp hr) q he
        · intro _; rfl

theorem jsonLookup_append_self (fs : List (String × Json)) (k : String) (w : Json) :
    jsonLookup (fs ++ [(k, w)]) k = some w := by
  induction fs with
  | nil => simp [jsonLookup]
  | cons p rest ih =>
    obtain ⟨k', v⟩ := p
    rw [List.cons_append, jsonLookup_cons, ih]

theorem jsonLookup_append_other (fs : List (String × Json)) (k k' : String) (w : Json)
    (hne : k' ≠ k) : jsonLookup (fs ++ [(k, w)]) k' = jsonLookup fs k' := by
  induction fs with
  | nil =>
    simp only [List.nil_append, jsonLookup]
    rw [if_neg (by simpa using fun hh => hne hh.symm)]
  | cons p rest ih =>
    obtain ⟨k0, v⟩ := p
    rw [List.cons_append, jsonLookup_cons, ih, jsonLookup_cons]

theorem jsonLookup_map_set_self (fs : List (String × Json)) (k : String) (w : Json) :
    jsonLookup (fs.map (fun p => if p.1 == k then (k, w) else p)) k =
      match jsonLookup fs k with
      | some _ => some w
      | none => none := by
  induction fs with
  | nil => rfl
  | cons p rest ih =>
    obtain ⟨k0, v⟩ := p
    rw [List.map_cons]
    by_cases h0 : (k0 == k) = true
    · rw [if_pos h0, jsonLookup_cons, ih, jsonLookup_cons]
      cases hr : jsonLookup rest k with
      | some r => rfl
      | none =>
        rw [if_pos h0]
        rw [if_pos (by simp)]
    · rw [if_neg h0, jsonLookup_cons, ih, jsonLookup_cons]
      cases hr : jsonLookup rest k with
      | some r => rfl
      | none => rw [if_neg h0]

theorem jsonLookup_map_set_other (fs : List (String × Json)) (k k' : String) (w : Json)
    (hne : k' ≠ k) :
    jsonLookup (fs.map (fun p => if p.1 == k then (k, w) else p)) k' = jsonLookup fs k' := by
  induction fs with
  | nil => rfl
  | cons p rest ih =>
    obtain ⟨k0, v⟩ := p
    rw [List.map_cons]
    by_cases h0 : (k0 == k) = true
    · have hk0 : k0 = k := by simpa using h0
      subst hk0
      rw [if_pos h0, jsonLookup_cons, ih, jsonLookup_cons]
      rw [if_neg (by simpa using fun hh => hne hh.symm),
        if_neg (by simpa using fun hh => hne hh.symm)]
    · rw [if_neg h0, jsonLookup_cons, ih, jsonLookup_cons]

theorem jsonLookup_setFieldList_self (fs : List (String × Json)) (k : String) (w : Json) :
    jsonLookup (setFieldList fs k w) k = some w := by
  unfold setFieldList
  by_cases hany : fs.any (fun p => p.1 == k) = true
  · rw [if_pos hany, jsonLookup_map_set_self]
    cases hr : jsonLookup fs k with
    | some r => rfl
    | none =>
      obtain ⟨p, hp, hpk⟩ := List.any_eq_true.mp hany
      exact absurd (by simpa using hpk) ((jsonLookup_eq_none_iff fs k).mp hr p hp)
  · rw [if_neg hany, jsonLookup_append_self]

theorem jsonLookup_setFieldList_other (fs : List (String × Json)) (k k' : String) (w : Json)
    (hne : k' ≠ k) : jsonLookup (setFieldList fs k w) k' = jsonLookup fs k' := by
  unfold setFieldList
  split
  · exact jsonLookup_map_set_other fs k k' w hne
  · exact jsonLookup_append_other fs k k' w hne

theorem jsonLookup_filterMapKeys (fs : List (String × Json)) (ks : List String)
    (hnd : ks.Nodup) (k : String) :
    jsonLookup (ks.filterMap (fun k' => (jsonLookup fs k').map (fun v => (k', v)))) k =
      if k ∈ ks then jsonLookup fs k else none := by
  induction ks with
  | nil => simp [jsonLookup]
  | cons k0 ks' ih =>
    rw [List.nodup_cons] at hnd
    rw [List.filterMap_cons]
    cases hf : jsonLookup fs k0 with
    | none =>
      simp only [Option.map_none']
      rw [ih hnd.2]
      by_cases hk : k = k0
      · subst hk
        rw [if_neg hnd.1, if_pos (List.mem_cons_self _ _), hf]
      · by_cases hk' : k ∈ ks'
        · rw [if_pos hk', if_pos (List.mem_cons_of_mem _ hk')]
        · rw [if_neg hk', if_neg (by
            intro hh
            rcases List.mem_cons.mp hh with he | he
            · exact hk he
            · exact hk' he)]
    | some v =>
      simp only [Option.map_some']
      rw [jsonLookup_cons, ih hnd.2]
      by_cases hk : k = k0
      · subst hk
        rw [if_neg hnd.1, if_pos (List.mem_cons_self _ _), hf]
        rw [if_pos (by simp)]
      · have hne : ¬ ((k0 == k) = true) := by
          simp only [beq_iff_eq]
          exact fun hh => hk hh.symm
        by_cases hk' : k ∈ ks'
        · rw [if_pos hk', if_pos (List.mem_cons_of_mem _ hk')]
          cases hr : jsonLookup fs k with
          | some r => rfl
          | none => rw [if_neg hne]
        · have hnotmem : k ∉ k0 :: ks' := by
            intro hh
            rcases List.mem_cons.mp hh with he | he
            · exact hk he
            · exact hk' he
          rw [if_neg hk', if_neg hnotmem, if_neg hne]

/-- Rebuilding an object in sorted key order does not change any
lookup. -/
theorem jsonLookup_sortObjectKeys (fs : List (String × Json)) (k : String) :
    jsonLookup (sortObjectKeys fs) k = jsonLookup fs k := by
  unfold sortObjectKeys
  rw [jsonLookup_filterMapKeys fs _
    (nodup_sortStrings _ (nodup_dedupKeysAux [] _)) k]
  by_cases hmem : k ∈ sortStrings (dedupKeysAux [] (fs.map Prod.fst))
  · rw [if_pos hmem]
  · rw [if_neg hmem]
    symm
    rw [jsonLookup_eq_none_iff]
    intro p hp hpk
    exact hmem ((mem_sortStrings _ _).mpr
      ((mem_dedupKeysAux _ _ _).mpr
        ⟨List.mem_map.mpr ⟨p, hp, hpk⟩, List.not_mem_nil _⟩))

theorem pairwise_filterMapLookup (fs : List (String × Json)) (ks : List String)
    (h : ks.Pairwise (fun a b => strLe a b = true)) :
    (ks.filterMap (fun k' => (jsonLookup fs k').map (fun v => (k', v)))).Pairwise
      (fun a b => strLe a.1 b.1 = true) := by
  induction ks with
  | nil => exact List.Pairwise.nil
  | cons k0 ks' ih =>
    rw [List.pairwise_cons] at h
    rw [List.filterMap_cons]
    cases hf : jsonLookup fs k0 with
    | none => exact ih h.2
    | some v =>
      simp only [Option.map_some']
      refine List.pairwise_cons.mpr ⟨?_, ih h.2⟩
      intro p hp
      rw [List.mem_filterMap] at hp
      obtain ⟨k', hk', hpe⟩ := hp
      cases hl : jsonLookup fs k' with
      | none => rw [hl] at hpe; cases hpe
      | some w =>
        rw [hl] at hpe
        simp only [Option.map_some', Option.some.injEq] at hpe
        subst hpe
        exact h.1 k' hk'

/-- The keys of a sorted object rebuild are in nondecreasing order. -/
theorem pairwise_sortObjectKeys (fs : List (String × Json)) :
    (sortObjectKeys fs).Pairwise (fun a b => strLe a.1 b.1 = true) := by
  unfold sortObjectKeys
  exact pairwise_filterMapLookup fs _ (pairwise_sortStrings _)

theorem jsMember_obj (fields : List (String × Json)) (k : String) :
    jsMember (.obj fields) k = .ok (jsonLookup fields k) := rfl


/-- C9 counterexample: a file named `package.json` whose entire text is
the valid JSON document `null`.  Its parsed content has neither a name
nor a version field, so the claim requires the no-change sentinel with
no exception; the editor instead throws a `TypeError` reading `.name` of
`null`. -/
theorem c9_null_manifest_counterexample :
    addDependency "package.json" (some Json.null) true = Except.error () ∧
    Except.error () ≠ (Except.ok none : Except Unit (Option Json)) := by
  refine ⟨rfl, fun h => ?_⟩
  cases h

/-- C9 (amended): the manifest editor returns the `null` sentinel and
does not throw whenever the file name does not end in `package.json`,
the text is not valid JSON, the parsed content is a non-null value with
neither a truthy name nor a truthy version member, the dependency is
already present with a truthy value in either dependency group, or no
sibling source file imports the package — except that a manifest whose
parsed content is JSON `null` makes the editor throw a `TypeError`.
Otherwise (an object manifest whose dependency groups, when present and
truthy, are objects) it inserts the dependency with the fixed version
string and returns a structure in which the runtime-dependency group
contains the new entry and both groups' keys are sorted.  The sibling
scan `checkForPackageImports` is a filesystem traversal and enters the
model only through its boolean outcome. -/
theorem c9_manifest_editor_rule :
    (∀ (filename : String) (parsed : Option Json) (hasImport : Bool),
      strEndsWith filename "package.json" = false →
      addDependency filename parsed hasImport = .ok none) ∧
    (∀ (filename : String) (hasImport : Bool),
      addDependency filename none hasImport = .ok none) ∧
    (∀ (filename : String) (j : Json) (hasImport : Bool) (nv vv : Option Json),
      jsMember j "name" = .ok nv → jsMember j "version" = .ok vv →
      jsTruthy nv = false → jsTruthy vv = false →
      addDependency filename (some j) hasImport = .ok none) ∧
    (∀ (filename : String) (fields : List (String × Json)) (hasImport : Bool),
      (jsTruthy (optChain (jsonLookup fields "dependencies") PACKAGE_NAME) ||
        jsTruthy (optChain (jsonLookup fields "devDependencies") PACKAGE_NAME)) = true →
      addDependency filename (some (.obj fields)) hasImport = .ok none) ∧
    (∀ (filename : String) (j : Json), j ≠ .null →
      addDependency filename (some j) false = .ok none) ∧
    (∀ (filename : String) (hasImport : Bool),
      strEndsWith filename "package.json" = true →
      addDependency filename (some .null) hasImport = .error ()) ∧
    (∀ (filename : String) (fields : List (String × Json)),
      strEndsWith filename "package.json" = true →
      (jsTruthy (jsonLookup fields "name") || jsTruthy (jsonLookup fields "version")) = true →
      jsTruthy (optChain (jsonLookup fields "dependencies") PACKAGE_NAME) = false →
      jsTruthy (optChain (jsonLookup fields "devDependencies") PACKAGE_NAME) = false →
      (jsTruthy (jsonLookup fields "dependencies") = false ∨
        (∃ dfs, jsonLookup fields "dependencies" = some (.obj dfs))) →
      (jsTruthy (jsonLookup fields "devDependencies") = false ∨
        (∃ vfs, jsonLookup fields "devDependencies" = some (.obj vfs))) →
      ∃ outFields depsFields,
        addDependency filename (some (.obj fields)) true = .ok (some (.obj outFields)) ∧
        jsonLookup outFields "dependencies" = some (.obj depsFields) ∧
        jsonLookup depsFields PACKAGE_NAME = some (.str PACKAGE_VERSION) ∧
        depsFields.Pairwise (fun a b => strLe a.1 b.1 = true) ∧
        (jsTruthy (jsonLookup fields "devDependencies") = true →
          ∃ devFields, jsonLookup outFields "devDependencies" = some (.obj devFields) ∧
            devFields.Pairwise (fun a b => strLe a.1 b.1 = true)) ∧
        (jsTruthy (jsonLookup fields "devDependencies") = false →
          jsonLookup outFields "devDependencies" =
            jsonLookup fields "devDependencies")) := by
  refine ⟨?_, ?_, ?_, ?_, ?_, ?_, ?_⟩
  · intro filename parsed hasImport hfn
    simp [addDependency, hfn]
  · intro filename hasImport
    simp only [addDependency]
    split <;> rfl
  · intro filename j hasImport nv vv hnv hvv htn htv
    simp only [addDependency, hnv, hvv]
    split
    · rfl
    · rw [if_pos (by rw [htn, htv]; rfl)]
  · intro filename fields hasImport hdecl
    simp only [addDependency, jsMember_obj]
    split
    · rfl
    · split
      · rfl
      · simp [hdecl]
  · intro filename j hj
    simp only [addDependency]
    split
    · rfl
    · cases j with
      | null => exact absurd rfl hj
      | obj fields =>
        simp only [jsMember_obj]
        split
        · rfl
        · split
          · rfl
          · rfl
      | bool b =>
        simp only [jsMember]
        cases b <;> rfl
      | num n => simp only [jsMember]; rfl
      | str s => simp only [jsMember]; rfl
      | arr xs => simp only [jsMember]; rfl
  · intro filename hasImport hfn
    simp only [addDependency, hfn, Bool.not_true, Bool.false_eq_true, if_false]
    rfl
  · intro filename fields hfn hnv hdep hdev hdepobj hdevobj
    have g1 : (!(jsTruthy (jsonLookup fields "name")) &&
        !(jsTruthy (jsonLookup fields "version"))) = false := by
      rw [Bool.or_eq_true] at hnv
      rcases hnv with h | h <;> rw [h] <;> simp
    have g2 : (jsTruthy (optChain (jsonLookup fields "dependencies") PACKAGE_NAME) ||
        jsTruthy (optChain (jsonLookup fields "devDependencies") PACKAGE_NAME)) = false := by
      rw [hdep, hdev]
      rfl
    have hbase : ∃ dfs0, (if jsTruthy (jsonLookup fields "dependencies") then
        (jsonLookup fields "dependencies").getD .null else Json.obj []) = .obj dfs0 := by
      rcases hdepobj with h | ⟨dfs, hdfs⟩
      · exact ⟨[], by rw [h]; rfl⟩
      · refine ⟨dfs, ?_⟩
        rw [hdfs]
        rfl
    obtain ⟨dfs0, hdfs0⟩ := hbase
    have hsort : ∀ fsx : List (String × Json),
        jsonLookup (sortObjectKeys (setFieldList fsx PACKAGE_NAME (.str PACKAGE_VERSION)))
          PACKAGE_NAME = some (.str PACKAGE_VERSION) := fun fsx => by
      rw [jsonLookup_sortObjectKeys, jsonLookup_setFieldList_self]
    cases hdevt : jsTruthy (jsonLookup fields "devDependencies") with
    | false =>
      refine ⟨setFieldList fields "dependencies"
          (.obj (sortObjectKeys (setFieldList dfs0 PACKAGE_NAME (.str PACKAGE_VERSION)))),
        sortObjectKeys (setFieldList dfs0 PACKAGE_NAME (.str PACKAGE_VERSION)),
        ?_, ?_, hsort dfs0, pairwise_sortObjectKeys _, ?_, ?_⟩
      · simp only [addDependency, jsMember_obj, hfn, Bool.not_true, Bool.false_eq_true,
          if_false, g1, g2, hdfs0, hdevt, Bool.not_false, if_true, jsSetProp]
      · rw [jsonLookup_setFieldList_self]
      · intro h
        exact Bool.noConfusion h
      · intro _
        exact jsonLookup_setFieldList_other _ _ _ _ (by decide)
    | true =>
      obtain ⟨vfs, hvfs⟩ : ∃ vfs, jsonLookup fields "devDependencies" = some (.obj vfs) := by
        rcases hdevobj with h | h
        · rw [h] at hdevt; cases hdevt
        · exact h
      refine ⟨setFieldList (setFieldList fields "dependencies"
            (.obj (sortObjectKeys (setFieldList dfs0 PACKAGE_NAME (.str PACKAGE_VERSION)))))
            "devDependencies" (.obj (sortObjectKeys vfs)),
        sortObjectKeys (setFieldList dfs0 PACKAGE_NAME (.str PACKAGE_VERSION)),
        ?_, ?_, hsort dfs0, pairwise_sortObjectKeys _, ?_, ?_⟩
      · have hdev' : jsTruthy (optChain (some (Json.obj vfs)) PACKAGE_NAME) = false := by
          rw [← hvfs]; exact hdev
        simp only [addDependency, jsMember_obj, hfn, Bool.not_true, Bool.false_eq_true,
          if_false, g1, hvfs, hdep, hdev', hdfs0, Bool.not_false, if_true, jsSetProp,
          Option.getD_some]
        simp [jsTruthy]
      · rw [jsonLookup_setFieldList_other _ _ _ _ (by decide),
          jsonLookup_setFieldList_self]
      · intro _
        exact ⟨sortObjectKeys vfs, jsonLookup_setFieldList_self _ _ _,
          pairwise_sortObjectKeys _⟩
      · intro h
        exact Bool.noConfusion h

/-- C9 witness: a non-manifest file name is left untouched with the
`null` sentinel. -/
theorem c9_manifest_editor_rule_witness :
    addDependency "src/index.ts" (some (.obj [("name", .str "pkg")])) true = .ok none :=
  c9_manifest_editor_rule.1 "src/index.ts" (some (.obj [("name", .str "pkg")])) true
    (by decide)
